import Mathlib

/-!
Verification development for the oh-my-opencode-slim configuration tooling.

The definitions below are shallow embeddings of the TypeScript source:
* `stripJsonComments` embeds the two string-aware regex passes of
  `src/cli/config-manager.ts` (comment removal, then trailing-comma removal).
* `updatePinnedVersion` embeds the surgical patcher of
  `src/hooks/auto-update-checker/checker.ts` (plugin-array locator by
  bracket counting, quoted-entry replacement, no-op detection).
* `extractChannel`, `findPluginEntry`, `getLatestVersion`,
  `addPluginTransform` embed the remaining core routines of those files.
Documents are embedded as `List Char` (one entry per UTF-16-ish code point;
all inputs considered here are plain scalar text, where JavaScript string
indexing and Lean list indexing agree).
-/

/-- The set matched by the JavaScript regex class `\s`. -/
def jsWhitespace (c : Char) : Bool :=
  c = ' ' || c = '\t' || c = '\n' || c = '\r' ||
  c.toNat = 11 || c.toNat = 12 ||
  c.toNat = 0xa0 || c.toNat = 0x1680 ||
  (0x2000 ≤ c.toNat && c.toNat ≤ 0x200a) ||
  c.toNat = 0x2028 || c.toNat = 0x2029 || c.toNat = 0x202f || c.toNat = 0x205f ||
  c.toNat = 0x3000 || c.toNat = 0xfeff

/-- JavaScript line terminators: the characters NOT matched by `.` in a regex
without the `s` flag (so a `//...` comment stops right before one of these). -/
def isLineTerminator (c : Char) : Bool :=
  c = '\n' || c = '\r' || c.toNat = 0x2028 || c.toNat = 0x2029

/-- The regex class `\d`. -/
def isDigitCh (c : Char) : Bool := '0' ≤ c && c ≤ '9'

/-- Matching semantics of the sub-regex `(?:\\"|[^"])*"` of
`config-manager.ts` (the body of a quoted string, after the opening quote),
including the backtracking behaviour of the JavaScript engine: the greedy
scan prefers consuming a `\"` pair; if the end of input is reached without a
closing quote, the most recent `\"` pair is re-read as a lone backslash
followed by the closing quote.  Returns the number of characters consumed
(including the closing quote), or `none` when no match exists. -/
def matchStringBody : List Char → Option Nat
  | [] => none
  | '"' :: _ => some 1
  | '\\' :: '"' :: rest =>
    match matchStringBody rest with
    | some n => some (n + 2)
    | none => some 2
  | _ :: rest =>
    match matchStringBody rest with
    | some n => some (n + 1)
    | none => none

/-- Length matched by `.*` after a `//`: everything up to (not including)
the next line terminator. -/
def lineCommentLen : List Char → Nat
  | [] => 0
  | c :: rest => if isLineTerminator c then 0 else lineCommentLen rest + 1

/-- Length matched by the lazy `[\s\S]*?\*\/` after a `/*`: everything up to
and including the first `*/`, or `none` when the comment is unterminated. -/
def blockCommentEndLen : List Char → Option Nat
  | '*' :: '/' :: _ => some 2
  | _ :: rest => (blockCommentEndLen rest).map (· + 1)
  | [] => none

/-- Length matched by `(\s*[}\]])` right after a comma: a run of whitespace
followed by a closing brace or bracket, or `none`. -/
def trailingCommaLen : List Char → Option Nat
  | [] => none
  | c :: rest =>
    if c = '\x7d' || c = ']' then some 1
    else if jsWhitespace c then (trailingCommaLen rest).map (· + 1)
    else none

/-- First pass of `stripJsonComments` (config-manager.ts line 45):
the global replace with `/\\"|"(?:\\"|[^"])*"|(\/\/.*|\/\*[\s\S]*?\*\/)/g`,
keeping escaped quotes and complete strings verbatim and deleting comments.
Unmatched characters (including a quote that opens no complete string and a
`/*` with no terminator) are copied through unchanged, exactly as a global
`String.replace` leaves text between matches untouched.
The `fuel` argument only makes the recursion structural: every step consumes
at least one character, so any `fuel > length` is enough and `stripComments`
below supplies `length + 1`. -/
def stripCommentsF : Nat → List Char → List Char
  | 0, s => s
  | _ + 1, [] => []
  | fuel + 1, c :: rest =>
    if c = '\\' && rest.head? = some '"' then
      '\\' :: '"' :: stripCommentsF fuel rest.tail
    else if c = '"' then
      match matchStringBody rest with
      | some n => '"' :: (rest.take n ++ stripCommentsF fuel (rest.drop n))
      | none => '"' :: stripCommentsF fuel rest
    else if c = '/' && rest.head? = some '/' then
      stripCommentsF fuel (rest.tail.drop (lineCommentLen rest.tail))
    else if c = '/' && rest.head? = some '*' then
      match blockCommentEndLen rest.tail with
      | some n => stripCommentsF fuel (rest.tail.drop n)
      | none => c :: stripCommentsF fuel rest
    else c :: stripCommentsF fuel rest

/-- First pass with its (always sufficient) fuel supplied. -/
def stripComments (s : List Char) : List Char := stripCommentsF (s.length + 1) s

/-- Second pass of `stripJsonComments` (config-manager.ts line 49):
the global replace with `/\\"|"(?:\\"|[^"])*"|(,)(\s*[}\]])/g`, which keeps
escaped quotes and complete strings verbatim and rewrites a comma followed
by whitespace and a closer to just the whitespace and the closer.
Fuel as in `stripCommentsF`. -/
def stripTrailingCommasF : Nat → List Char → List Char
  | 0, s => s
  | _ + 1, [] => []
  | fuel + 1, c :: rest =>
    if c = '\\' && rest.head? = some '"' then
      '\\' :: '"' :: stripTrailingCommasF fuel rest.tail
    else if c = '"' then
      match matchStringBody rest with
      | some n => '"' :: (rest.take n ++ stripTrailingCommasF fuel (rest.drop n))
      | none => '"' :: stripTrailingCommasF fuel rest
    else if c = ',' then
      match trailingCommaLen rest with
      | some n => rest.take n ++ stripTrailingCommasF fuel (rest.drop n)
      | none => ',' :: stripTrailingCommasF fuel rest
    else c :: stripTrailingCommasF fuel rest

/-- Second pass with its (always sufficient) fuel supplied. -/
def stripTrailingCommas (s : List Char) : List Char :=
  stripTrailingCommasF (s.length + 1) s

/-- `stripJsonComments` of `src/cli/config-manager.ts` (lines 38-56):
comment removal followed by trailing-comma removal. -/
def stripJsonComments (json : List Char) : List Char :=
  stripTrailingCommas (stripComments json)

/-! ## The surgical patcher: `updatePinnedVersion` (checker.ts lines 185-233) -/

/-- `PACKAGE_NAME` of `src/hooks/auto-update-checker/constants.ts`. -/
def PACKAGE_NAME : List Char := "oh-my-opencode-slim".data

/-- Number of leading characters matched by a greedy `\s*`. -/
def skipWsCount : List Char → Nat
  | [] => 0
  | c :: rest => if jsWhitespace c then skipWsCount rest + 1 else 0

/-- Length of a match of the regex `"plugin"\s*:\s*\[` starting at the head
of `cs`, or `none` when it does not match here (checker.ts line 190): the
eight characters `"plugin"`, then a maximal whitespace run (the greedy
`\s*`), a colon, another maximal whitespace run, and an opening bracket. -/
def matchPluginHeader (cs : List Char) : Option Nat :=
  if "\"plugin\"".data.isPrefixOf cs then
    if cs[8 + skipWsCount (cs.drop 8)]? = some ':' then
      if cs[8 + skipWsCount (cs.drop 8) + 1 +
            skipWsCount (cs.drop (8 + skipWsCount (cs.drop 8) + 1))]? = some '[' then
        some (8 + skipWsCount (cs.drop 8) + 1 +
              skipWsCount (cs.drop (8 + skipWsCount (cs.drop 8) + 1)) + 1)
      else none
    else none
  else none

/-- Leftmost match of `"plugin"\s*:\s*\[`: `content.match(...)`, returning
the match index and the match length. -/
def findPluginHeaderAux : List Char → Nat → Option (Nat × Nat)
  | [], _ => none
  | c :: rest, i =>
    match matchPluginHeader (c :: rest) with
    | some len => some (i, len)
    | none => findPluginHeaderAux rest (i + 1)

/-- See `findPluginHeaderAux`. -/
def findPluginHeader (content : List Char) : Option (Nat × Nat) :=
  findPluginHeaderAux content 0

/-- The bracket-counting loop of checker.ts lines 197-204: starting at
index `i` with the given open-bracket `count` and current `endIdx`, walk the
remaining characters, incrementing on `[` and decrementing on `]`, recording
the index just visited, until the count returns to zero or the text ends. -/
def bracketScan : List Char → Nat → Nat → Nat → Nat
  | [], _, _, endIdx => endIdx
  | c :: rest, i, count, endIdx =>
    if count = 0 then endIdx
    else
      bracketScan rest (i + 1)
        (if c = '[' then count + 1 else if c = ']' then count - 1 else count) i

/-- The value of `endIdx` after the loop, for a scan starting just after the
opening bracket at `startIdx` (checker.ts lines 197-204). -/
def bracketEnd (content : List Char) (startIdx : Nat) : Nat :=
  bracketScan (content.drop startIdx) startIdx 1 startIdx

/-- Reference characterisation of the matching closing bracket: the first
offset, in the text after the opening bracket, at which the bracket depth
(starting from `count`) returns to zero. -/
def firstClose : List Char → Nat → Option Nat
  | [], _ => none
  | c :: rest, count =>
    let count' := if c = '[' then count + 1 else if c = ']' then count - 1 else count
    if count' = 0 then some 0 else (firstClose rest count').map (· + 1)

/-- The character class `["']` of the entry-matching regex
(checker.ts line 211). -/
def isQuoteCh (c : Char) : Bool := c = '"' || c = '\x27'

/-- After a quote character: does `old` followed by another quote character
start here?  Returns the text after that second quote on success. -/
def quotedHere (old rest : List Char) : Option (List Char) :=
  if old.isPrefixOf rest then
    match rest.drop old.length with
    | q :: post => if isQuoteCh q then some post else none
    | [] => none
  else none

/-- Does the regex `["']old["']` match at the head of `cs`? -/
def quotedAt (old cs : List Char) : Bool :=
  match cs with
  | c :: rest => isQuoteCh c && (quotedHere old rest).isSome
  | [] => false

/-- `pluginArrayContent.replace(regex, `"${newEntry}"`)` for the non-global
regex `["']escapedOldEntry["']` (checker.ts lines 210-218), fused with the
preceding `regex.test`: `none` when the regex does not match, otherwise the
text with the first quoted occurrence replaced by `nw` in double quotes. -/
def replaceQuoted (old nw : List Char) : List Char → Option (List Char)
  | [] => none
  | c :: rest =>
    if isQuoteCh c then
      match quotedHere old rest with
      | some post => some ('"' :: (nw ++ '"' :: post))
      | none => (replaceQuoted old nw rest).map (c :: ·)
    else (replaceQuoted old nw rest).map (c :: ·)

/-- `` `${PACKAGE_NAME}@${newVersion}` `` (checker.ts line 188). -/
def newEntryOf (newVersion : List Char) : List Char :=
  PACKAGE_NAME ++ '@' :: newVersion

/-- `content.slice(startIdx, endIdx)` for the located plugin array, where
`(idx, len)` is the header match (checker.ts lines 206-207). -/
def pluginSlice (content : List Char) (idx len : Nat) : List Char :=
  (content.drop (idx + len)).take (bracketEnd content (idx + len) - (idx + len))

/-- `updatePinnedVersion` of checker.ts lines 185-233, as a pure function of
the file content: returns the boolean result together with the content of
the file after the call (the original content whenever the function returns
`false`, since every `false` path returns before `writeFileSync`). -/
def updatePinnedVersion (content oldEntry newVersion : List Char) :
    Bool × List Char :=
  match findPluginHeader content with
  | none => (false, content)
  | some (idx, len) =>
    let startIdx := idx + len
    let endIdx := bracketEnd content startIdx
    match replaceQuoted oldEntry (newEntryOf newVersion)
        (pluginSlice content idx len) with
    | none => (false, content)
    | some updatedSlice =>
      let updated := content.take startIdx ++ updatedSlice ++ content.drop endIdx
      if updated = content then (false, content) else (true, updated)

/-! ## The channel classifier: `extractChannel` (checker.ts lines 18-40) -/

/-- `version.split("-")`. -/
def splitOnChar (sep : Char) : List Char → List (List Char)
  | [] => [[]]
  | c :: rest =>
    match splitOnChar sep rest with
    | [] => [[]]
    | h :: t => if c = sep then [] :: h :: t else (c :: h) :: t

/-- The alternatives of the regex `^(alpha|beta|rc|canary|next)`, in their
alternation order. -/
def channelNames : List (List Char) :=
  ["alpha".data, "beta".data, "rc".data, "canary".data, "next".data]

/-- `prereleasePart.match(/^(alpha|beta|rc|canary|next)/)` (checker.ts
line 34): the first alternative that is a prefix of the given text. -/
def matchChannel (part : List Char) : Option (List Char) :=
  channelNames.find? (fun ch => ch.isPrefixOf part)

/-- `isDistTag` (checker.ts lines 22-24): `!/^\d/.test(version)`. -/
def isDistTag (version : List Char) : Bool :=
  match version.head? with
  | some c => !(isDigitCh c)
  | none => true

/-- `isPrereleaseVersion` (checker.ts lines 18-20). -/
def isPrereleaseVersion (version : List Char) : Bool := version.contains '-'

/-- `extractChannel` (checker.ts lines 26-40).  `none` models a `null`
argument; a present empty string also takes the `if (!version)` branch
because the empty string is falsy in JavaScript. -/
def extractChannel (version : Option (List Char)) : List Char :=
  match version with
  | none => "latest".data
  | some v =>
    if v.isEmpty then "latest".data
    else if isDistTag v then v
    else if isPrereleaseVersion v then
      match (splitOnChar '-' v)[1]? with
      | some part =>
        if part.isEmpty then "latest".data
        else
          match matchChannel part with
          | some ch => ch
          | none => "latest".data
      | none => "latest".data
    else "latest".data

/-! ## Config resolution: `findPluginEntry` (checker.ts lines 136-159)

The file system is abstracted as the ordered list of candidate config files
produced by `getConfigPaths` (checker.ts lines 43-66): for each candidate
path, either `none` — the file does not exist, cannot be read, or fails to
parse after stripping, all of which the `try`/`catch` turns into "skip this
candidate" — or `some plugins`, the `plugin` array of the parsed config
(`config.plugin ?? []`). -/

/-- The result record of `findPluginEntry` (checker.ts lines 129-134). -/
structure PluginEntryInfo where
  entry : List Char
  isPinned : Bool
  pinnedVersion : Option (List Char)
  configPath : String
deriving DecidableEq

/-- One iteration of the entry loop of checker.ts lines 144-153: how a
single plugin entry is classified, `none` meaning the loop moves on.  The
TypeScript computes `pinnedVersion = entry.slice(name.length + 1)`,
`isPinned = pinnedVersion !== "latest"` and returns
`pinnedVersion: isPinned ? pinnedVersion : null`; the conditional is
inlined here on the same test. -/
def classifyEntry (configPath : String) (entry : List Char) :
    Option PluginEntryInfo :=
  if entry = PACKAGE_NAME then
    some ⟨entry, false, none, configPath⟩
  else if (PACKAGE_NAME ++ ['@']).isPrefixOf entry then
    if entry.drop (PACKAGE_NAME.length + 1) = "latest".data then
      some ⟨entry, false, none, configPath⟩
    else
      some ⟨entry, true, some (entry.drop (PACKAGE_NAME.length + 1)), configPath⟩
  else none

/-- The entry loop over one file's plugin array. -/
def findEntryInPlugins (configPath : String) (plugins : List (List Char)) :
    Option PluginEntryInfo :=
  plugins.findSome? (classifyEntry configPath)

/-- `findPluginEntry` (checker.ts lines 136-159) over the abstracted
candidate list: the first candidate that is readable and whose plugin array
contains a matching entry wins; later candidates are never consulted. -/
def findPluginEntry
    (candidates : List (String × Option (List (List Char)))) :
    Option PluginEntryInfo :=
  candidates.findSome? (fun c => c.2.bind (findEntryInPlugins c.1))

/-! ## Registry lookup: `getLatestVersion` (checker.ts lines 235-254)

The network is abstracted as the outcome of the `fetch`: `failure` covers a
rejected promise — a network error, or the abort fired by the
`NPM_FETCH_TIMEOUT` timer — which the `catch` turns into `null`;
`success ok tags` covers a completed response with `response.ok` status and
dist-tags body `tags`. -/

/-- Outcome of the time-bounded `fetch` of checker.ts lines 240-243. -/
inductive FetchResult where
  | success (ok : Bool) (distTags : List (List Char × List Char))
  | failure
deriving DecidableEq

/-- JavaScript property lookup `data[key]` on the parsed dist-tags object. -/
def lookupTag (tags : List (List Char × List Char)) (key : List Char) :
    Option (List Char) :=
  (tags.find? (fun kv => kv.1 = key)).map (·.2)

/-- `getLatestVersion` (checker.ts lines 235-254):
`data[channel] ?? data.latest ?? null`, with `null` for a non-ok response
and for a rejected fetch. -/
def getLatestVersion (result : FetchResult) (channel : List Char) :
    Option (List Char) :=
  match result with
  | .failure => none
  | .success ok tags =>
    if !ok then none
    else
      match lookupTag tags channel with
      | some v => some v
      | none => lookupTag tags "latest".data

/-! ## Install-time plugin array rewrite:
`addPluginToOpenCodeConfig` (config-manager.ts lines 162-197) -/

/-- Does a plugin entry refer to this package in registry form: the bare
name, or `name@...`? -/
def refsPackage (p : List Char) : Bool :=
  p = PACKAGE_NAME || (PACKAGE_NAME ++ ['@']).isPrefixOf p

/-- The plugin-array transformation of `addPluginToOpenCodeConfig`
(config-manager.ts lines 177-186): drop every entry equal to the package
name or starting with `name@`, then append the bare package name.  The
written config's `plugin` field is exactly this applied to
`config.plugin ?? []`. -/
def addPluginTransform (plugins : List (List Char)) : List (List Char) :=
  (plugins.filter
    (fun p => !(p = PACKAGE_NAME) && !((PACKAGE_NAME ++ ['@']).isPrefixOf p)))
  ++ [PACKAGE_NAME]

/-! ## Strict JSON and JSONC syntactic validity

Modelled from the spec: the repository hands the stripped text to the host's
`JSON.parse` (not part of src/), and the spec speaks of input that is
"syntactically valid JSON-with-comments" and output that "parses as
syntactically valid JSON".  The checker below implements the standard JSON
grammar (RFC 8259 tokens and structure), with a flag that additionally
allows `//` and `/* */` comments between tokens for the JSONC variant. -/

/-- Hexadecimal digit, for `\uXXXX` escapes. -/
def isHexDigit (c : Char) : Bool :=
  isDigitCh c || ('a' ≤ c && c ≤ 'f') || ('A' ≤ c && c ≤ 'F')

/-- Length of a valid JSON string body starting after the opening quote,
including the closing quote; `none` if the string is unterminated or
contains an invalid escape or a raw control character. -/
def jsonStringLen : List Char → Option Nat
  | [] => none
  | '"' :: _ => some 1
  | '\\' :: e :: rest =>
    if e = '"' || e = '\\' || e = '/' || e = 'b' || e = 'f' ||
        e = 'n' || e = 'r' || e = 't' then
      (jsonStringLen rest).map (· + 2)
    else if e = 'u' then
      match rest with
      | h1 :: h2 :: h3 :: h4 :: rest' =>
        if isHexDigit h1 && isHexDigit h2 && isHexDigit h3 && isHexDigit h4 then
          (jsonStringLen rest').map (· + 6)
        else none
      | _ => none
    else none
  | c :: rest =>
    if c.toNat < 32 then none else (jsonStringLen rest).map (· + 1)

/-- Number of leading decimal digits. -/
def digitCount : List Char → Nat
  | [] => 0
  | c :: rest => if isDigitCh c then digitCount rest + 1 else 0

/-- Length of a JSON number starting at the head of `cs` (which begins with
`-` or a digit); a malformed fraction or exponent part is simply not
consumed, so the offending character is rejected by the tokenizer. -/
def jsonNumberLen (cs : List Char) : Option Nat :=
  let neg := match cs with | '-' :: _ => 1 | _ => 0
  let cs1 := cs.drop neg
  match cs1 with
  | c :: rest =>
    if isDigitCh c then
      let ilen := if c = '0' then 1 else 1 + digitCount rest
      let cs2 := cs1.drop ilen
      let flen :=
        match cs2 with
        | '.' :: d :: r => if isDigitCh d then 2 + digitCount r else 0
        | _ => 0
      let cs3 := cs2.drop flen
      let elen :=
        match cs3 with
        | e :: r =>
          if e = 'e' || e = 'E' then
            match r with
            | s :: r' =>
              if s = '+' || s = '-' then
                match r' with
                | d :: r'' => if isDigitCh d then 3 + digitCount r'' else 0
                | [] => 0
              else if isDigitCh s then 2 + digitCount r'
              else 0
            | [] => 0
          else 0
        | [] => 0
      some (neg + ilen + flen + elen)
    else none
  | [] => none

/-- JSON tokens. -/
inductive JsonTok where
  | str (raw : List Char)
  | num
  | lit (name : List Char)
  | lbrace | rbrace | lbrack | rbrack | colon | comma
deriving DecidableEq

/-- Tokenizer for JSON, with `allowComments` additionally skipping `//` and
terminated `/* */` comments between tokens.  Fuel is consumed once per step
and every step consumes at least one character, so `length + 1` suffices. -/
def tokenizeAux (allowComments : Bool) : Nat → List Char → Option (List JsonTok)
  | 0, _ => none
  | _ + 1, [] => some []
  | fuel + 1, c :: rest =>
    if c = ' ' || c = '\t' || c = '\n' || c = '\r' then
      tokenizeAux allowComments fuel rest
    else if allowComments && c = '/' then
      match rest with
      | '/' :: r => tokenizeAux allowComments fuel (r.drop (lineCommentLen r))
      | '*' :: r =>
        match blockCommentEndLen r with
        | some n => tokenizeAux allowComments fuel (r.drop n)
        | none => none
      | _ => none
    else if c = '"' then
      match jsonStringLen rest with
      | some n =>
        (tokenizeAux allowComments fuel (rest.drop n)).map
          (JsonTok.str (rest.take (n - 1)) :: ·)
      | none => none
    else if c = '\x7b' then (tokenizeAux allowComments fuel rest).map (.lbrace :: ·)
    else if c = '\x7d' then (tokenizeAux allowComments fuel rest).map (.rbrace :: ·)
    else if c = '[' then (tokenizeAux allowComments fuel rest).map (.lbrack :: ·)
    else if c = ']' then (tokenizeAux allowComments fuel rest).map (.rbrack :: ·)
    else if c = ':' then (tokenizeAux allowComments fuel rest).map (.colon :: ·)
    else if c = ',' then (tokenizeAux allowComments fuel rest).map (.comma :: ·)
    else if c = '-' || isDigitCh c then
      match jsonNumberLen (c :: rest) with
      | some n => (tokenizeAux allowComments fuel ((c :: rest).drop n)).map (.num :: ·)
      | none => none
    else if "true".data.isPrefixOf (c :: rest) then
      (tokenizeAux allowComments fuel ((c :: rest).drop 4)).map (.lit "true".data :: ·)
    else if "false".data.isPrefixOf (c :: rest) then
      (tokenizeAux allowComments fuel ((c :: rest).drop 5)).map (.lit "false".data :: ·)
    else if "null".data.isPrefixOf (c :: rest) then
      (tokenizeAux allowComments fuel ((c :: rest).drop 4)).map (.lit "null".data :: ·)
    else none

mutual

/-- Recursive-descent check of one JSON value; returns the unconsumed
tokens.  Fuel makes the mutual recursion structural. -/
def parseValue : Nat → List JsonTok → Option (List JsonTok)
  | 0, _ => none
  | _ + 1, [] => none
  | fuel + 1, t :: rest =>
    match t with
    | .str _ => some rest
    | .num => some rest
    | .lit _ => some rest
    | .lbrack =>
      match rest with
      | .rbrack :: r => some r
      | _ => parseElems fuel rest
    | .lbrace =>
      match rest with
      | .rbrace :: r => some r
      | _ => parseMembers fuel rest
    | _ => none

/-- One or more comma-separated array elements followed by `]`. -/
def parseElems : Nat → List JsonTok → Option (List JsonTok)
  | 0, _ => none
  | fuel + 1, toks =>
    match parseValue fuel toks with
    | some (.comma :: r) => parseElems fuel r
    | some (.rbrack :: r) => some r
    | _ => none

/-- One or more `"key": value` members followed by `}`. -/
def parseMembers : Nat → List JsonTok → Option (List JsonTok)
  | 0, _ => none
  | fuel + 1, toks =>
    match toks with
    | .str _ :: .colon :: r =>
      match parseValue fuel r with
      | some (.comma :: r') => parseMembers fuel r'
      | some (.rbrace :: r') => some r'
      | _ => none
    | _ => none

end

/-- Tokenize, then require exactly one JSON value consuming every token. -/
def validJsonWith (allowComments : Bool) (s : List Char) : Bool :=
  match tokenizeAux allowComments (s.length + 1) s with
  | some toks => decide (parseValue (2 * toks.length + 2) toks = some [])
  | none => false

/-- Modelled from the spec: "parses as syntactically valid JSON". -/
def validJson (s : List Char) : Bool := validJsonWith false s

/-- Modelled from the spec: "syntactically valid JSON-with-comments". -/
def validJsonc (s : List Char) : Bool := validJsonWith true s

/-! ## Pattern predicates used to state the identity property (claim C9) -/

/-- Does the two-character sequence `a b` occur anywhere in the text? -/
def hasSub2 (a b : Char) : List Char → Bool
  | c :: d :: rest => (c = a && d = b) || hasSub2 a b (d :: rest)
  | _ => false

/-- Does a comma followed by optional whitespace and a closing `}` or `]`
occur anywhere in the text? -/
def hasTrailingCommaPattern : List Char → Bool
  | [] => false
  | c :: rest => (c = ',' && (trailingCommaLen rest).isSome) || hasTrailingCommaPattern rest

/-! ## Concrete documents used by witnesses and counterexamples -/

/-- A syntactically valid JSONC document (the array `["\", ""]` — its first
string's value is one backslash — with a block comment after the first
element) on which the stripper fails to remove the comment. -/
def backslashCommentDoc : List Char := "[\"\\\\\" /* */, \"\"]".data

/-- A document whose plugin array lists the pinned entry in single quotes. -/
def singleQuotedDoc : List Char :=
  "\x7b\"plugin\": [\x27oh-my-opencode-slim@1.0.0\x27]\x7d".data

/-- A document with no `plugin` array at all. -/
def noPluginDoc : List Char := "\x7b\"provider\": \x7b\x7d\x7d".data

/-- A document whose plugin array is empty. -/
def emptyPluginDoc : List Char := "\x7b\"plugin\": []\x7d".data

/-- A double-quoted pinned document. -/
def doubleQuotedDoc : List Char :=
  "\x7b\"plugin\": [\"oh-my-opencode-slim@1.0.0\"]\x7d".data

/-! ## Helper lemmas -/

theorem take_mid_drop {α : Type} (l : List α) (s e : Nat) (h : s ≤ e) :
    l.take s ++ ((l.drop s).take (e - s) ++ l.drop e) = l := by
  have h1 : l.drop e = (l.drop s).drop (e - s) := by
    rw [List.drop_drop]
    congr 1
    omega
  rw [h1, List.take_append_drop, List.take_append_drop]

theorem stripCommentsF_nil (fuel : Nat) : stripCommentsF fuel [] = [] := by
  cases fuel <;> rfl

theorem stripTrailingCommasF_nil (fuel : Nat) :
    stripTrailingCommasF fuel [] = [] := by
  cases fuel <;> rfl

theorem bracketScan_zero (cs : List Char) (i e : Nat) :
    bracketScan cs i 0 e = e := by
  cases cs <;> simp [bracketScan]

theorem bracketScan_ge : ∀ (cs : List Char) (i count e s : Nat),
    s ≤ i → s ≤ e → s ≤ bracketScan cs i count e := by
  intro cs
  induction cs with
  | nil => intro i count e s hi he; simpa [bracketScan] using he
  | cons c rest ih =>
    intro i count e s hi he
    simp only [bracketScan]
    split
    · exact he
    · exact ih (i + 1) _ i s (by omega) hi

theorem bracketEnd_ge (content : List Char) (s : Nat) :
    s ≤ bracketEnd content s :=
  bracketScan_ge _ s 1 s s le_rfl le_rfl

theorem bracketScan_firstClose : ∀ (cs : List Char) (count k : Nat),
    count ≠ 0 → firstClose cs count = some k →
    ∀ (i e : Nat), bracketScan cs i count e = i + k := by
  intro cs
  induction cs with
  | nil => intro count k _ h; simp [firstClose] at h
  | cons c rest ih =>
    intro count k hcount h i e
    simp only [firstClose] at h
    simp only [bracketScan, if_neg hcount]
    by_cases hz :
        (if c = '[' then count + 1 else if c = ']' then count - 1 else count) = 0
    · rw [if_pos hz] at h
      obtain rfl : (0 : Nat) = k := Option.some.inj h
      rw [hz, bracketScan_zero]
      omega
    · rw [if_neg hz] at h
      obtain ⟨k', hk', rfl⟩ := Option.map_eq_some'.mp h
      rw [ih _ k' hz hk' (i + 1) i]
      omega

theorem firstClose_closes : ∀ (cs : List Char) (count k : Nat),
    count ≠ 0 → firstClose cs count = some k → cs[k]? = some ']' := by
  intro cs
  induction cs with
  | nil => intro count k _ h; simp [firstClose] at h
  | cons c rest ih =>
    intro count k hcount h
    simp only [firstClose] at h
    by_cases hz :
        (if c = '[' then count + 1 else if c = ']' then count - 1 else count) = 0
    · rw [if_pos hz] at h
      obtain rfl : (0 : Nat) = k := Option.some.inj h
      have hc : c = ']' := by
        by_cases h1 : c = '['
        · rw [if_pos h1] at hz; omega
        · by_cases h2 : c = ']'
          · exact h2
          · rw [if_neg h1, if_neg h2] at hz; exact absurd hz hcount
      simp [hc]
    · rw [if_neg hz] at h
      obtain ⟨k', hk', rfl⟩ := Option.map_eq_some'.mp h
      simpa using ih _ k' hz hk'

theorem findPluginHeaderAux_spec : ∀ (cs : List Char) (i idx len : Nat),
    findPluginHeaderAux cs i = some (idx, len) →
    i ≤ idx ∧ matchPluginHeader (cs.drop (idx - i)) = some len := by
  intro cs
  induction cs with
  | nil => intro i idx len h; simp [findPluginHeaderAux] at h
  | cons c rest ih =>
    intro i idx len h
    simp only [findPluginHeaderAux] at h
    cases hm : matchPluginHeader (c :: rest) with
    | some l =>
      rw [hm] at h
      obtain ⟨rfl, rfl⟩ : i = idx ∧ l = len := by
        have := Option.some.inj h
        exact ⟨congrArg Prod.fst this, congrArg Prod.snd this⟩
      exact ⟨le_rfl, by simpa using hm⟩
    | none =>
      rw [hm] at h
      obtain ⟨h1, h2⟩ := ih (i + 1) idx len h
      refine ⟨by omega, ?_⟩
      have hidx : idx - i = (idx - (i + 1)) + 1 := by omega
      rw [hidx]
      simpa using h2

theorem quotedHere_some (old rest post : List Char)
    (h : quotedHere old rest = some post) :
    ∃ q, isQuoteCh q = true ∧ rest = old ++ q :: post := by
  by_cases hpre : old.isPrefixOf rest
  · obtain ⟨t, ht⟩ := List.isPrefixOf_iff_prefix.mp hpre
    have hdrop : rest.drop old.length = t := by rw [← ht, List.drop_left]
    cases t with
    | nil =>
      have hnone : quotedHere old rest = none := by
        unfold quotedHere
        rw [if_pos hpre, hdrop]
      rw [hnone] at h
      simp at h
    | cons q post' =>
      have hsome : quotedHere old rest = if isQuoteCh q then some post' else none := by
        unfold quotedHere
        rw [if_pos hpre, hdrop]
      rw [hsome] at h
      by_cases hq : isQuoteCh q
      · rw [if_pos hq] at h
        obtain rfl : post' = post := Option.some.inj h
        exact ⟨q, hq, ht.symm⟩
      · rw [if_neg hq] at h
        simp at h
  · unfold quotedHere at h
    rw [if_neg hpre] at h
    simp at h

theorem replaceQuoted_spec (old nw : List Char) : ∀ (cs out : List Char),
    replaceQuoted old nw cs = some out →
    ∃ i q1 q2 post,
      cs.drop i = q1 :: (old ++ q2 :: post) ∧
      isQuoteCh q1 = true ∧ isQuoteCh q2 = true ∧
      out = cs.take i ++ '"' :: (nw ++ '"' :: post) ∧
      ∀ j, j < i → quotedAt old (cs.drop j) = false := by
  intro cs
  induction cs with
  | nil => intro out h; simp [replaceQuoted] at h
  | cons c rest ih =>
    intro out h
    simp only [replaceQuoted] at h
    by_cases hq : isQuoteCh c
    · rw [if_pos hq] at h
      cases hqh : quotedHere old rest with
      | some post =>
        rw [hqh] at h
        obtain rfl := (Option.some.inj h).symm
        obtain ⟨q2, hq2, hrest⟩ := quotedHere_some old rest post hqh
        exact ⟨0, c, q2, post, by simpa using hrest, hq, hq2, by simp, by omega⟩
      | none =>
        rw [hqh] at h
        obtain ⟨out', hout', rfl⟩ := Option.map_eq_some'.mp h
        obtain ⟨i, q1, q2, post, hd, h1, h2, h3, h4⟩ := ih out' hout'
        refine ⟨i + 1, q1, q2, post, by simpa using hd, h1, h2, by simp [h3], ?_⟩
        intro j hj
        cases j with
        | zero => simp [quotedAt, hqh]
        | succ j' => simpa using h4 j' (by omega)
    · rw [if_neg hq] at h
      obtain ⟨out', hout', rfl⟩ := Option.map_eq_some'.mp h
      obtain ⟨i, q1, q2, post, hd, h1, h2, h3, h4⟩ := ih out' hout'
      refine ⟨i + 1, q1, q2, post, by simpa using hd, h1, h2, by simp [h3], ?_⟩
      intro j hj
      cases j with
      | zero => simp [quotedAt, hq]
      | succ j' => simpa using h4 j' (by omega)

/-! ## Claim C1 -/

/-- Claim C1 is refuted by the code: `backslashCommentDoc` — the JSONC array
`["\", ""]` (whose first string literal's value is a single backslash) with
a block comment after the first element — is syntactically valid
JSON-with-comments, yet `stripJsonComments` returns it unchanged: the
string-matching alternative of the comment regex mispairs the escaped
backslash's second `\` with the closing quote and swallows the comment and
comma into one "string" match, so the comment is never removed and the
output does not parse as JSON. -/
theorem stripJsonComments_backslash_comment_bug :
    validJsonc backslashCommentDoc = true ∧
    stripJsonComments backslashCommentDoc = backslashCommentDoc ∧
    validJson (stripJsonComments backslashCommentDoc) = false :=
  ⟨by decide, by decide, by decide⟩

/-! ## Claim C2 -/

/-- Claim C2: `updatePinnedVersion` never modifies the document when the
target is absent — if no `"plugin"\s*:\s*\[` header matches it returns
`false` with the content untouched, and if the old entry does not occur
quoted within the located plugin-array slice it returns `false` with the
content untouched (no write happens on either path). -/
theorem updatePinnedVersion_absent_no_write (content old v : List Char) :
    (findPluginHeader content = none →
      updatePinnedVersion content old v = (false, content)) ∧
    (∀ idx len, findPluginHeader content = some (idx, len) →
      replaceQuoted old (newEntryOf v) (pluginSlice content idx len) = none →
      updatePinnedVersion content old v = (false, content)) := by
  constructor
  · intro h
    simp [updatePinnedVersion, h]
  · intro idx len h1 h2
    simp [updatePinnedVersion, h1, h2]

/-- Witness for C2 at concrete inputs: a document with no plugin array, and
a document whose plugin array does not contain the old entry. -/
theorem updatePinnedVersion_absent_no_write_witness :
    updatePinnedVersion noPluginDoc "oh-my-opencode-slim@1.0.0".data "2.0.0".data
      = (false, noPluginDoc) ∧
    updatePinnedVersion emptyPluginDoc "oh-my-opencode-slim@1.0.0".data "2.0.0".data
      = (false, emptyPluginDoc) :=
  ⟨(updatePinnedVersion_absent_no_write noPluginDoc _ _).1 (by decide),
   (updatePinnedVersion_absent_no_write emptyPluginDoc _ _).2 1 11 (by decide) (by decide)⟩

/-! ## Claim C3 -/

theorem matchPluginHeader_bracket (cs : List Char) (len : Nat)
    (h : matchPluginHeader cs = some len) :
    1 ≤ len ∧ cs[len - 1]? = some '[' := by
  unfold matchPluginHeader at h
  by_cases h1 : "\"plugin\"".data.isPrefixOf cs
  · rw [if_pos h1] at h
    by_cases h2 : cs[8 + skipWsCount (cs.drop 8)]? = some ':'
    · rw [if_pos h2] at h
      by_cases h3 : cs[8 + skipWsCount (cs.drop 8) + 1 +
          skipWsCount (cs.drop (8 + skipWsCount (cs.drop 8) + 1))]? = some '['
      · rw [if_pos h3] at h
        obtain rfl := (Option.some.inj h).symm
        exact ⟨by omega, by simpa using h3⟩
      · rw [if_neg h3] at h
        simp at h
    · rw [if_neg h2] at h
      simp at h
  · rw [if_neg h1] at h
    simp at h

/-- Claim C3: the rewritten document is exactly
`before ++ patchedSlice ++ after`, where `before` is every byte of the
original up to just after the plugin array's opening bracket (the character
just before the slice is `[`) and `after` is every byte from the matching
closing bracket onward (the first position at which the bracket depth
returns to zero — a `]`); every byte outside the located slice is taken
verbatim from the original. -/
theorem updatePinnedVersion_frame (content old v out : List Char) (idx len k : Nat)
    (hfind : findPluginHeader content = some (idx, len))
    (hclose : firstClose (content.drop (idx + len)) 1 = some k)
    (hrep : replaceQuoted old (newEntryOf v) (pluginSlice content idx len) = some out) :
    (updatePinnedVersion content old v).snd
      = content.take (idx + len) ++ out ++ content.drop (idx + len + k) ∧
    content[idx + len - 1]? = some '[' ∧
    content[idx + len + k]? = some ']' := by
  have hend : bracketEnd content (idx + len) = idx + len + k := by
    unfold bracketEnd
    rw [bracketScan_firstClose _ 1 k (by omega) hclose (idx + len) (idx + len)]
  refine ⟨?_, ?_, ?_⟩
  · simp only [updatePinnedVersion, hfind, hrep, hend]
    split
    next heq => simpa using heq.symm
    next => rfl
  · obtain ⟨-, hmatch⟩ := findPluginHeaderAux_spec content 0 idx len hfind
    have hm : matchPluginHeader (content.drop idx) = some len := by simpa using hmatch
    obtain ⟨hlen1, hget⟩ := matchPluginHeader_bracket (content.drop idx) len hm
    rw [List.getElem?_drop] at hget
    have harith : idx + len - 1 = idx + (len - 1) := by omega
    rw [harith]
    exact hget
  · have hcl := firstClose_closes (content.drop (idx + len)) 1 k (by omega) hclose
    rw [List.getElem?_drop] at hcl
    exact hcl

/-- Witness for C3: the pinned double-quoted document, patched from 1.0.0
to 2.0.0; the slice boundaries land just after the `[` at index 11 and on
the `]` at index 39. -/
theorem updatePinnedVersion_frame_witness :
    (updatePinnedVersion doubleQuotedDoc "oh-my-opencode-slim@1.0.0".data "2.0.0".data).snd
      = doubleQuotedDoc.take (1 + 11) ++ "\"oh-my-opencode-slim@2.0.0\"".data
        ++ doubleQuotedDoc.drop (1 + 11 + 27) ∧
    doubleQuotedDoc[1 + 11 - 1]? = some '[' ∧
    doubleQuotedDoc[1 + 11 + 27]? = some ']' :=
  updatePinnedVersion_frame doubleQuotedDoc "oh-my-opencode-slim@1.0.0".data
    "2.0.0".data "\"oh-my-opencode-slim@2.0.0\"".data 1 11 27
    (by decide) (by decide) (by decide)

/-! ## Claim C4 -/

/-- Claim C4 as stated is refuted by the code: on `singleQuotedDoc` the old
entry is found wrapped in single quotes, yet the replacement is written in
double quotes (`pluginArrayContent.replace(regex, `"${newEntry}"`)` always
emits `"`), not quoted identically to how it was found. -/
theorem updatePinnedVersion_single_quote_counterexample :
    updatePinnedVersion singleQuotedDoc "oh-my-opencode-slim@1.0.0".data "2.0.0".data
      = (true, "\x7b\"plugin\": [\"oh-my-opencode-slim@2.0.0\"]\x7d".data) ∧
    "\x7b\"plugin\": [\"oh-my-opencode-slim@2.0.0\"]\x7d".data
      ≠ "\x7b\"plugin\": [\x27oh-my-opencode-slim@2.0.0\x27]\x7d".data :=
  ⟨by decide, by decide⟩

/-- Claim C4 (amended): when the old entry occurs quoted (in single or
double quotes) in the located plugin-array slice, `updatePinnedVersion`
rewrites exactly the first quoted occurrence — no quoted occurrence starts
earlier in the slice — and the replacement is always wrapped in double
quotes, regardless of the quote characters it was found between. -/
theorem updatePinnedVersion_replaces_first_double_quoted
    (content old v out : List Char) (idx len : Nat)
    (hfind : findPluginHeader content = some (idx, len))
    (hrep : replaceQuoted old (newEntryOf v) (pluginSlice content idx len) = some out) :
    ∃ i q1 q2 post,
      (pluginSlice content idx len).drop i = q1 :: (old ++ q2 :: post) ∧
      isQuoteCh q1 = true ∧ isQuoteCh q2 = true ∧
      out = (pluginSlice content idx len).take i
        ++ '"' :: (newEntryOf v ++ '"' :: post) ∧
      (∀ j, j < i → quotedAt old ((pluginSlice content idx len).drop j) = false) ∧
      (updatePinnedVersion content old v).snd
        = content.take (idx + len) ++ out
          ++ content.drop (bracketEnd content (idx + len)) := by
  obtain ⟨i, q1, q2, post, h1, h2, h3, h4, h5⟩ :=
    replaceQuoted_spec old (newEntryOf v) _ out hrep
  refine ⟨i, q1, q2, post, h1, h2, h3, h4, h5, ?_⟩
  simp only [updatePinnedVersion, hfind, hrep]
  split
  next heq => simpa using heq.symm
  next => rfl

/-- Witness for the amended C4: the single-quoted pinned document; the
rewritten slice carries the new entry in double quotes. -/
theorem updatePinnedVersion_replaces_first_double_quoted_witness :
    (updatePinnedVersion singleQuotedDoc "oh-my-opencode-slim@1.0.0".data "2.0.0".data).snd
      = singleQuotedDoc.take (1 + 11) ++ "\"oh-my-opencode-slim@2.0.0\"".data
        ++ singleQuotedDoc.drop (bracketEnd singleQuotedDoc (1 + 11)) := by
  obtain ⟨i, q1, q2, post, h1, h2, h3, h4, h5, h6⟩ :=
    updatePinnedVersion_replaces_first_double_quoted singleQuotedDoc
      "oh-my-opencode-slim@1.0.0".data "2.0.0".data
      "\"oh-my-opencode-slim@2.0.0\"".data 1 11 (by decide) (by decide)
  exact h6

/-! ## Claim C5 -/

theorem isQuoteCh_eq (c : Char) (h : isQuoteCh c = true) :
    c = '"' ∨ c = '\x27' := by
  simpa [isQuoteCh] using h

/-- Claim C5 as stated is refuted by the code: on `singleQuotedDoc`, calling
with the new entry equal to the old entry still reports `true` and rewrites
the document, because the single-quoted occurrence is replaced by a
double-quoted one. -/
theorem updatePinnedVersion_noop_counterexample :
    (updatePinnedVersion singleQuotedDoc (newEntryOf "1.0.0".data) "1.0.0".data).fst
      = true ∧
    (updatePinnedVersion singleQuotedDoc (newEntryOf "1.0.0".data) "1.0.0".data).snd
      ≠ singleQuotedDoc :=
  ⟨by decide, by decide⟩

/-- Claim C5 (amended): on every document containing no single-quote
character (so any quoted occurrence of the entry is double-quoted, the only
form valid JSON can contain), calling `updatePinnedVersion` with the new
entry equal to the old entry reports `false` and leaves the document
byte-for-byte identical; no write is performed. -/
theorem updatePinnedVersion_identity_noop (content v : List Char)
    (hq : '\x27' ∉ content) :
    updatePinnedVersion content (newEntryOf v) v = (false, content) := by
  cases hfind : findPluginHeader content with
  | none => simp [updatePinnedVersion, hfind]
  | some p =>
    obtain ⟨idx, len⟩ := p
    cases hrep : replaceQuoted (newEntryOf v) (newEntryOf v)
        (pluginSlice content idx len) with
    | none => simp [updatePinnedVersion, hfind, hrep]
    | some out =>
      have hmem : ∀ c ∈ pluginSlice content idx len, c ∈ content := by
        intro c hc
        exact List.mem_of_mem_drop (List.mem_of_mem_take hc)
      obtain ⟨i, q1, q2, post, h1, h2, h3, h4, h5⟩ :=
        replaceQuoted_spec (newEntryOf v) (newEntryOf v) _ out hrep
      have hq1drop : q1 ∈ List.drop i (pluginSlice content idx len) := by
        rw [h1]
        exact List.mem_cons_self _ _
      have hq2drop : q2 ∈ List.drop i (pluginSlice content idx len) := by
        rw [h1]
        exact List.mem_cons_of_mem _
          (List.mem_append_right _ (List.mem_cons_self _ _))
      have hq1 : q1 = '"' := by
        rcases isQuoteCh_eq q1 h2 with h | h
        · exact h
        · exact absurd (hmem q1 (List.mem_of_mem_drop hq1drop)) (h ▸ hq)
      have hq2 : q2 = '"' := by
        rcases isQuoteCh_eq q2 h3 with h | h
        · exact h
        · exact absurd (hmem q2 (List.mem_of_mem_drop hq2drop)) (h ▸ hq)
      have hout : out = pluginSlice content idx len := by
        rw [h4]
        conv_rhs =>
          rw [← List.take_append_drop i (pluginSlice content idx len), h1, hq1, hq2]
      have hupd : content.take (idx + len) ++ out
          ++ content.drop (bracketEnd content (idx + len)) = content := by
        rw [hout]
        unfold pluginSlice
        rw [List.append_assoc]
        exact take_mid_drop content (idx + len) (bracketEnd content (idx + len))
          (bracketEnd_ge content (idx + len))
      simp only [updatePinnedVersion, hfind, hrep]
      rw [if_pos hupd]

/-- Witness for the amended C5: the double-quoted pinned document contains
no single quote, and the no-op call changes nothing. -/
theorem updatePinnedVersion_identity_noop_witness :
    updatePinnedVersion doubleQuotedDoc (newEntryOf "1.0.0".data) "1.0.0".data
      = (false, doubleQuotedDoc) :=
  updatePinnedVersion_identity_noop doubleQuotedDoc "1.0.0".data (by decide)

/-! ## Claim C6 -/

/-- Claim C6 as stated is refuted by the code on the empty token: `""` does
not begin with a digit, so the claim's dist-tag rule says it is returned
verbatim, but `extractChannel` returns `"latest"` because the guard
`if (!version)` also fires on the falsy empty string. -/
theorem extractChannel_empty_counterexample :
    extractChannel (some []) = "latest".data ∧ "latest".data ≠ ([] : List Char) :=
  ⟨by decide, by decide⟩

/-- Claim C6 (amended): a null, missing, or empty token yields `"latest"`;
every non-empty token not beginning with a digit is returned verbatim; a
token beginning with a digit and containing a `-` yields the element of
`{alpha, beta, rc, canary, next}` that is a prefix of the part after the
first `-` (the code inspects `split("-")[1]`, the segment between the first
and second dash, which has exactly the same channel prefixes since no
channel name contains a dash), and `"latest"` if none matches or there is
no `-`; and the claim's five concrete examples hold. -/
theorem extractChannel_rules :
    extractChannel none = "latest".data ∧
    extractChannel (some []) = "latest".data ∧
    (∀ c v, isDigitCh c = false → extractChannel (some (c :: v)) = c :: v) ∧
    (∀ c v, isDigitCh c = true → isPrereleaseVersion (c :: v) = false →
      extractChannel (some (c :: v)) = "latest".data) ∧
    (∀ c v part ch, isDigitCh c = true → isPrereleaseVersion (c :: v) = true →
      (splitOnChar '-' (c :: v))[1]? = some part →
      matchChannel part = some ch →
      extractChannel (some (c :: v)) = ch ∧ ch.isPrefixOf part = true ∧
        ch ∈ channelNames) ∧
    (∀ c v part, isDigitCh c = true → isPrereleaseVersion (c :: v) = true →
      (splitOnChar '-' (c :: v))[1]? = some part →
      matchChannel part = none →
      extractChannel (some (c :: v)) = "latest".data) ∧
    extractChannel (some "1.2.3".data) = "latest".data ∧
    extractChannel (some "1.2.3-beta.1".data) = "beta".data ∧
    extractChannel (some "1.2.3-unknownrc".data) = "latest".data ∧
    extractChannel (some "canary".data) = "canary".data := by
  refine ⟨rfl, rfl, ?_, ?_, ?_, ?_, by decide, by decide, by decide, by decide⟩
  · intro c v h
    simp [extractChannel, isDistTag, h]
  · intro c v h hnd
    simp [extractChannel, isDistTag, h, hnd]
  · intro c v part ch h hd hpart hm
    have hpne : part ≠ [] := by
      intro he
      rw [he] at hm
      rw [(by decide : matchChannel [] = none)] at hm
      cases hm
    have hm' : channelNames.find? (fun x => x.isPrefixOf part) = some ch := hm
    have hpref0 := List.find?_some hm'
    have hpref : ch.isPrefixOf part = true := hpref0
    refine ⟨?_, hpref, List.mem_of_find?_eq_some hm'⟩
    cases part with
    | nil => exact absurd rfl hpne
    | cons p ps =>
      simp [extractChannel, isDistTag, h, hd, hpart, hm]
  · intro c v part h hd hpart hm
    cases part with
    | nil => simp [extractChannel, isDistTag, h, hd, hpart]
    | cons p ps => simp [extractChannel, isDistTag, h, hd, hpart, hm]

/-- Witness for the amended C6 at concrete tokens of each shape. -/
theorem extractChannel_rules_witness :
    extractChannel (some ['x']) = ['x'] ∧
    extractChannel (some ['7']) = "latest".data ∧
    extractChannel (some ('7' :: "-rc9".data)) = "rc".data ∧
    extractChannel (some ('7' :: "-zzz".data)) = "latest".data :=
  ⟨extractChannel_rules.2.2.1 'x' [] (by decide),
   extractChannel_rules.2.2.2.1 '7' [] (by decide) (by decide),
   (extractChannel_rules.2.2.2.2.1 '7' "-rc9".data "rc9".data "rc".data
     (by decide) (by decide) (by decide) (by decide)).1,
   extractChannel_rules.2.2.2.2.2.1 '7' "-zzz".data "zzz".data
     (by decide) (by decide) (by decide) (by decide)⟩

/-! ## Claim C7 -/

/-- Claim C7: `findPluginEntry` returns the classification of the first
candidate config file (in search order) whose plugin array contains the
package — candidates before it contribute nothing and candidates after it
are never merged in — and the pin state of an entry is: the bare package
name is unpinned with no pinned version; `name@latest` is unpinned with no
pinned version; any other `name@X` is pinned to version `X`. -/
theorem findPluginEntry_first_match_pin_state :
    (∀ (pre : List (String × Option (List (List Char)))) (p : String)
        (ps : List (List Char))
        (post : List (String × Option (List (List Char))))
        (info : PluginEntryInfo),
      (∀ q ∈ pre, q.2.bind (findEntryInPlugins q.1) = none) →
      findEntryInPlugins p ps = some info →
      findPluginEntry (pre ++ (p, some ps) :: post) = some info) ∧
    (∀ p : String,
      classifyEntry p PACKAGE_NAME = some ⟨PACKAGE_NAME, false, none, p⟩) ∧
    (∀ p : String,
      classifyEntry p (PACKAGE_NAME ++ '@' :: "latest".data)
        = some ⟨PACKAGE_NAME ++ '@' :: "latest".data, false, none, p⟩) ∧
    (∀ (p : String) (ver : List Char), ver ≠ "latest".data →
      classifyEntry p (PACKAGE_NAME ++ '@' :: ver)
        = some ⟨PACKAGE_NAME ++ '@' :: ver, true, some ver, p⟩) := by
  refine ⟨?_, ?_, ?_, ?_⟩
  · intro pre
    induction pre with
    | nil =>
      intro p ps post info _ hfound
      simp [findPluginEntry, List.findSome?_cons, hfound]
    | cons q pre' ih =>
      intro p ps post info hpre hfound
      have hq := hpre q (List.mem_cons_self _ _)
      have hrec := ih p ps post info
        (fun r hr => hpre r (List.mem_cons_of_mem _ hr)) hfound
      simpa [findPluginEntry, List.findSome?_cons, hq] using hrec
  · intro p
    simp [classifyEntry]
  · intro p
    unfold classifyEntry
    rw [if_neg (by decide), if_pos (by decide), if_pos (by decide)]
  · intro p ver hver
    have hne : ¬(PACKAGE_NAME ++ '@' :: ver = PACKAGE_NAME) := by
      intro h
      have hl := congrArg List.length h
      rw [List.length_append] at hl
      simp at hl
    have hpre : (PACKAGE_NAME ++ ['@']).isPrefixOf (PACKAGE_NAME ++ '@' :: ver)
        = true := by
      rw [List.isPrefixOf_iff_prefix]
      exact ⟨ver, by simp⟩
    have hdrop : (PACKAGE_NAME ++ '@' :: ver).drop (PACKAGE_NAME.length + 1)
        = ver := by
      have hform : PACKAGE_NAME ++ '@' :: ver = (PACKAGE_NAME ++ ['@']) ++ ver := by
        simp
      have hlen : (PACKAGE_NAME ++ ['@']).length = PACKAGE_NAME.length + 1 := by
        simp
      rw [hform, ← hlen, List.drop_left]
    unfold classifyEntry
    rw [if_neg hne, if_pos hpre, hdrop, if_neg hver]

/-- Witness for C7: three candidates — a missing file, a file whose plugin
array has no matching entry, and a file with a pinned entry; plus a pinned
classification at a concrete version. -/
theorem findPluginEntry_first_match_pin_state_witness :
    findPluginEntry
      [("proj", none), ("projc", some ["other-plugin".data]),
       ("user", some ["x".data, "oh-my-opencode-slim@2.0.0".data])]
      = some ⟨"oh-my-opencode-slim@2.0.0".data, true, some "2.0.0".data, "user"⟩ ∧
    classifyEntry "p" (PACKAGE_NAME ++ '@' :: "3.1.4".data)
      = some ⟨PACKAGE_NAME ++ '@' :: "3.1.4".data, true, some "3.1.4".data, "p"⟩ :=
  ⟨findPluginEntry_first_match_pin_state.1
      [("proj", none), ("projc", some ["other-plugin".data])] "user"
      ["x".data, "oh-my-opencode-slim@2.0.0".data] []
      ⟨"oh-my-opencode-slim@2.0.0".data, true, some "2.0.0".data, "user"⟩
      (by decide) (by decide),
   findPluginEntry_first_match_pin_state.2.2.2 "p" "3.1.4".data (by decide)⟩

/-! ## Claim C8 -/

/-- Claim C8: `getLatestVersion` returns the version mapped to the requested
channel in the fetched dist-tags; if that key is absent it falls back to the
`"latest"` key; a non-ok response returns `none`; and a rejected fetch — a
network error or the timeout abort — returns `none` rather than throwing
(the `catch` converts the rejection into `null`). -/
theorem getLatestVersion_channel_fallback
    (tags : List (List Char × List Char)) (channel v : List Char) :
    getLatestVersion .failure channel = none ∧
    getLatestVersion (.success false tags) channel = none ∧
    (lookupTag tags channel = some v →
      getLatestVersion (.success true tags) channel = some v) ∧
    (lookupTag tags channel = none →
      getLatestVersion (.success true tags) channel
        = lookupTag tags "latest".data) := by
  refine ⟨rfl, rfl, ?_, ?_⟩ <;> intro h <;> simp [getLatestVersion, h]

/-- Witness for C8: the spec's dist-tags example, on a present channel and
on an absent one. -/
theorem getLatestVersion_channel_fallback_witness :
    getLatestVersion
      (.success true [("latest".data, "2.0.0".data), ("beta".data, "2.1.0-beta.3".data)])
      "beta".data = some "2.1.0-beta.3".data ∧
    getLatestVersion (.success true [("latest".data, "2.0.0".data)]) "beta".data
      = some "2.0.0".data := by
  constructor
  · exact (getLatestVersion_channel_fallback
      [("latest".data, "2.0.0".data), ("beta".data, "2.1.0-beta.3".data)]
      "beta".data "2.1.0-beta.3".data).2.2.1 (by decide)
  · have h := (getLatestVersion_channel_fallback
      [("latest".data, "2.0.0".data)] "beta".data []).2.2.2 (by decide)
    rw [h]
    decide

/-! ## Claim C9 -/

theorem hasSub2_tail (a b c : Char) (rest : List Char)
    (h : hasSub2 a b (c :: rest) = false) : hasSub2 a b rest = false := by
  cases rest with
  | nil => rfl
  | cons d r =>
    simp only [hasSub2, Bool.or_eq_false_iff] at h
    exact h.2

theorem stripCommentsF_eq_self : ∀ (fuel : Nat) (s : List Char),
    s.length < fuel → '"' ∉ s →
    hasSub2 '/' '/' s = false → hasSub2 '/' '*' s = false →
    stripCommentsF fuel s = s := by
  intro fuel
  induction fuel with
  | zero => intro s hlen _ _ _; omega
  | succ fuel ih =>
    intro s hlen h1 h2 h3
    cases s with
    | nil => rfl
    | cons c rest =>
      have hrestq : '"' ∉ rest := fun hm => h1 (List.mem_cons_of_mem c hm)
      have hcq : ¬(c = '"') := by
        intro hc
        exact h1 (by rw [hc]; exact List.mem_cons_self _ _)
      have hhead : ¬(rest.head? = some '"') := by
        intro hh
        cases rest with
        | nil => simp at hh
        | cons d r =>
          rw [List.head?_cons, Option.some.injEq] at hh
          subst hh
          exact h1 (List.mem_cons_of_mem c (List.mem_cons_self _ _))
      have hlt : rest.length < fuel := by
        simp [List.length_cons] at hlen
        omega
      have hrec : stripCommentsF fuel rest = rest :=
        ih rest hlt hrestq (hasSub2_tail _ _ _ _ h2) (hasSub2_tail _ _ _ _ h3)
      have hslash : ¬(rest.head? = some '/' ∧ c = '/') := by
        rintro ⟨hh, rfl⟩
        cases rest with
        | nil => simp at hh
        | cons d r =>
          rw [List.head?_cons, Option.some.injEq] at hh
          subst hh
          simp [hasSub2] at h2
      have hstar : ¬(rest.head? = some '*' ∧ c = '/') := by
        rintro ⟨hh, rfl⟩
        cases rest with
        | nil => simp at hh
        | cons d r =>
          rw [List.head?_cons, Option.some.injEq] at hh
          subst hh
          simp [hasSub2] at h3
      simp only [stripCommentsF]
      rw [if_neg (by simp [hhead]),
        if_neg hcq,
        if_neg (by simp; intro hc hh; exact hslash ⟨hh, hc⟩),
        if_neg (by simp; intro hc hh; exact hstar ⟨hh, hc⟩),
        hrec]

theorem stripTrailingCommasF_eq_self : ∀ (fuel : Nat) (s : List Char),
    s.length < fuel → '"' ∉ s →
    hasTrailingCommaPattern s = false →
    stripTrailingCommasF fuel s = s := by
  intro fuel
  induction fuel with
  | zero => intro s hlen _ _; omega
  | succ fuel ih =>
    intro s hlen h1 h4
    cases s with
    | nil => rfl
    | cons c rest =>
      have hrestq : '"' ∉ rest := fun hm => h1 (List.mem_cons_of_mem c hm)
      have hcq : ¬(c = '"') := by
        intro hc
        exact h1 (by rw [hc]; exact List.mem_cons_self _ _)
      have hhead : ¬(rest.head? = some '"') := by
        intro hh
        cases rest with
        | nil => simp at hh
        | cons d r =>
          rw [List.head?_cons, Option.some.injEq] at hh
          subst hh
          exact h1 (List.mem_cons_of_mem c (List.mem_cons_self _ _))
      have hlt : rest.length < fuel := by
        simp [List.length_cons] at hlen
        omega
      have h4rest : hasTrailingCommaPattern rest = false := by
        simp only [hasTrailingCommaPattern, Bool.or_eq_false_iff] at h4
        exact h4.2
      have hrec : stripTrailingCommasF fuel rest = rest := ih rest hlt hrestq h4rest
      simp only [stripTrailingCommasF]
      rw [if_neg (by simp [hhead]), if_neg hcq]
      by_cases hc : c = ','
      · have htcl : trailingCommaLen rest = none := by
          cases htcl : trailingCommaLen rest with
          | none => rfl
          | some n =>
            rw [hc] at h4
            simp [hasTrailingCommaPattern, htcl] at h4
        rw [if_pos hc, htcl]
        show ',' :: stripTrailingCommasF fuel rest = c :: rest
        rw [hrec, hc]
      · rw [if_neg hc, hrec]

/-- Claim C9: for every string containing no `"`, no `//`, no `/*`, and no
comma followed by optional whitespace and a closing `}` or `]`,
`stripJsonComments` is the identity — in particular the empty string and
whitespace-only strings are returned unchanged.  (The embedding is a total
function, matching the code's freedom from exceptions: both passes are
plain regex replaces that degrade gracefully on unterminated strings.) -/
theorem stripJsonComments_identity_on_plain (s : List Char)
    (h1 : '"' ∉ s)
    (h2 : hasSub2 '/' '/' s = false) (h3 : hasSub2 '/' '*' s = false)
    (h4 : hasTrailingCommaPattern s = false) :
    stripJsonComments s = s := by
  unfold stripJsonComments stripComments stripTrailingCommas
  rw [stripCommentsF_eq_self (s.length + 1) s (by omega) h1 h2 h3]
  exact stripTrailingCommasF_eq_self (s.length + 1) s (by omega) h1 h4

/-- Witness for C9: a whitespace-only string and a comma-and-slash-bearing
plain string are left unchanged. -/
theorem stripJsonComments_identity_on_plain_witness :
    stripJsonComments "   ".data = "   ".data ∧
    stripJsonComments "a, b / c".data = "a, b / c".data :=
  ⟨stripJsonComments_identity_on_plain "   ".data
      (by decide) (by decide) (by decide) (by decide),
   stripJsonComments_identity_on_plain "a, b / c".data
      (by decide) (by decide) (by decide) (by decide)⟩

/-! ## Claim C10 -/

/-- Claim C10: after a successful `addPluginToOpenCodeConfig`, the written
plugin array contains exactly one entry referencing the package (bare name
or `name@...` form); it is the bare package name, appended as the last
element; and the entries for other packages are preserved — filtered to the
non-referencing entries, the written array equals the original array's
non-referencing entries in their original relative order. -/
theorem addPluginToOpenCodeConfig_plugin_array (plugins : List (List Char)) :
    List.countP refsPackage (addPluginTransform plugins) = 1 ∧
    (addPluginTransform plugins).getLast? = some PACKAGE_NAME ∧
    (addPluginTransform plugins).filter (fun p => !(refsPackage p))
      = plugins.filter (fun p => !(refsPackage p)) := by
  have hpred :
      (fun p : List Char =>
        !(p = PACKAGE_NAME) && !((PACKAGE_NAME ++ ['@']).isPrefixOf p))
      = (fun p => !(refsPackage p)) := by
    funext p
    simp [refsPackage, Bool.not_or]
  refine ⟨?_, ?_, ?_⟩
  · unfold addPluginTransform
    rw [hpred, List.countP_append, List.countP_filter]
    have hff : (fun a => refsPackage a && !refsPackage a) = fun _ => false := by
      funext a
      cases refsPackage a <;> simp
    rw [hff]
    simp [List.countP_cons, refsPackage]
  · exact List.getLast?_concat _
  · unfold addPluginTransform
    rw [hpred, List.filter_append, List.filter_filter]
    have hself : (fun a => !refsPackage a && !refsPackage a)
        = (fun a => !refsPackage a) := by
      funext a
      exact Bool.and_self _
    rw [hself]
    simp [refsPackage]
